import Mathlib

/-!
Verification of the bounded lock-free job queues (SPMC and MPMC variants)
of `src/osca.hpp`, namespaces `osca::queue::Spmc` and `osca::queue::Mpmc`.

The queues are embedded shallowly as sequential (atomic-step) state
transformers over a state of 32-bit counters and a ring of slots.  Machine
`u32` values are modelled as `Nat` reduced modulo `2^32` at every update,
exactly where the C++ `u32` arithmetic wraps; the cast `i32(x)` of the
source is modelled by `toI32`.  A slot's payload bytes (`data`) together
with the type-erased run function (`func`) are modelled by a single opaque
job identifier: the only observable action of `entry.func(entry.data)` is
"the job stored in this slot runs", which the trace semantics records.

Loops of the source that can only repeat when a concurrent thread moved a
counter (the `diff > 0` branches of `Mpmc::try_add` and of `run_next`, and
the retry loop of `add`) diverge in a sequential execution, because the
re-read counter is unchanged; the embedding returns `none` there.
-/

set_option maxRecDepth 4096

/-- `2^32`, the modulus of the `u32` counters of the queue. -/
def U32 : Nat := 4294967296

/-- u32 subtraction `a - b`: two's-complement wraparound, `(a - b) mod 2^32`. -/
def usub (a b : Nat) : Nat := (a % U32 + (U32 - b % U32)) % U32

/-- The C++ cast `i32(x)`: reinterpret a u32 value as a signed 32-bit two's
complement integer. -/
def toI32 (a : Nat) : Int :=
  let r : Nat := a % U32
  if r < 2147483648 then (r : Int) else (r : Int) - (U32 : Int)

/-- One `Entry` of the ring (`struct Entry` of the source): the payload
bytes `data` and run function `func` are modelled together by the opaque
`job` identifier; `sequence` is the u32 lifecycle tag. -/
structure Slot where
  job : Nat
  sequence : Nat
deriving Repr, DecidableEq

instance : Inhabited Slot := ⟨⟨0, 0⟩⟩

/-- The shared state of a queue: the ring `queue_[QueueSize]` and the three
u32 counters `head_`, `tail_` and `completed_`. -/
structure QState where
  slots : List Slot
  head : Nat
  tail : Nat
  completed : Nat
deriving Repr, DecidableEq

/-- `init()`: zero the counters and set `queue_[i].sequence = i` for all `i`
(identical in `Spmc` and `Mpmc`). -/
def initQ (n : Nat) : QState :=
  { slots := (List.range n).map (fun i => { job := 0, sequence := i }),
    head := 0, tail := 0, completed := 0 }

namespace Spmc

/-- `Spmc::try_add` (single producer): read `queue_[head_ % QueueSize]`, and
if its acquire-loaded `sequence` differs from `head_` return `false`
(slot not free from the previous lap).  Otherwise construct the job in the
slot, increment `head_` (u32 wrap), and release-store the slot's `sequence`
to the incremented head, returning `true`.  Sequentially the construction
of the payload and the sequence store land in one step. -/
def tryAdd (n : Nat) (job : Nat) (s : QState) : Bool × QState :=
  let idx := s.head % n
  let entry := s.slots.getD idx default
  if entry.sequence ≠ s.head then
    (false, s)
  else
    let head1 := (s.head + 1) % U32
    (true,
      { s with
        slots := s.slots.set idx { job := job, sequence := head1 },
        head := head1 })

/-- `Spmc::add`: retry `try_add` (with a CPU pause) until it succeeds.  A
failed `try_add` leaves the state unchanged, so in a sequential execution a
failure repeats forever: the embedding returns `none` (divergence). -/
def add (n : Nat) (job : Nat) (s : QState) : Option QState :=
  match tryAdd n job s with
  | (true, s1) => some s1
  | (false, _) => none

/-- `Spmc::run_next`: load `tail_` as `t`, acquire-load the sequence of
`queue_[t % QueueSize]`, and branch on `diff = i32(seq - (t + 1))`:
negative means no job is ready (`false`); positive means `t` was stale and
the loop re-reads `tail_` — sequentially `tail_` is unchanged, so the loop
spins forever (`none`); zero means the job is claimable, and the CAS of
`tail_` from `t` to `t + 1` succeeds sequentially: the job runs
(`entry.func(entry.data)` — recorded as the returned job identifier), the
slot's sequence is release-stored as `t + QueueSize`, and `completed_` is
atomically incremented, all with u32 wraparound. -/
def runNext (n : Nat) (s : QState) : Option (Bool × Option Nat × QState) :=
  let t := s.tail
  let entry := s.slots.getD (t % n) default
  let diff := toI32 (usub entry.sequence ((t + 1) % U32))
  if diff < 0 then
    some (false, none, s)
  else if 0 < diff then
    none
  else
    some (true, some entry.job,
      { s with
        slots := s.slots.set (t % n) { entry with sequence := (t + n) % U32 },
        tail := (t + 1) % U32,
        completed := (s.completed + 1) % U32 })

/-- `Spmc::active_count`: `head_` (plain read) minus a relaxed read of
`completed_`, in wrapping u32 arithmetic. -/
def activeCount (s : QState) : Nat := usub s.head s.completed

/-- `Spmc::wait_idle`: spin (with pause) while `head_` differs from the
acquire-loaded `completed_`.  Sequentially neither changes during the loop,
so the call returns iff they are already equal, else diverges (`none`). -/
def waitIdle (s : QState) : Option Unit :=
  if s.head = s.completed then some () else none

end Spmc

namespace Mpmc

/-- `Mpmc::try_add` (multiple producers): relaxed-load `head_` as `h`, then
loop: acquire-load the sequence of `queue_[h % QueueSize]` and branch on
`diff = i32(seq - h)`: positive means a competing producer took the slot,
so `h` is re-read from `head_` — unchanged in a sequential execution, so
the loop spins forever (`none`); negative means the queue is full
(`false`); zero means the slot is claimable and the CAS of `head_` from `h`
to `h + 1` succeeds sequentially: the job is constructed in the slot and
its sequence is release-stored as `h + 1` (u32 wrap). -/
def tryAdd (n : Nat) (job : Nat) (s : QState) : Option (Bool × QState) :=
  let h := s.head
  let entry := s.slots.getD (h % n) default
  let diff := toI32 (usub entry.sequence h)
  if 0 < diff then
    none
  else if diff < 0 then
    some (false, s)
  else
    some (true,
      { s with
        slots := s.slots.set (h % n) { job := job, sequence := (h + 1) % U32 },
        head := (h + 1) % U32 })

/-- `Mpmc::add`: retry `try_add` (with a CPU pause) until it succeeds; a
sequentially failing or diverging `try_add` repeats forever (`none`). -/
def add (n : Nat) (job : Nat) (s : QState) : Option QState :=
  match tryAdd n job s with
  | some (true, s1) => some s1
  | some (false, _) => none
  | none => none

/-- `Mpmc::run_next`: textually identical to `Spmc::run_next` — load
`tail_` as `t`, acquire-load the slot's sequence, branch on
`diff = i32(seq - (t + 1))` (negative: not ready, `false`; positive: stale
`t`, sequential divergence; zero: claim via CAS on `tail_`, run the job,
release the slot's sequence as `t + QueueSize`, increment `completed_`). -/
def runNext (n : Nat) (s : QState) : Option (Bool × Option Nat × QState) :=
  let t := s.tail
  let entry := s.slots.getD (t % n) default
  let diff := toI32 (usub entry.sequence ((t + 1) % U32))
  if diff < 0 then
    some (false, none, s)
  else if 0 < diff then
    none
  else
    some (true, some entry.job,
      { s with
        slots := s.slots.set (t % n) { entry with sequence := (t + n) % U32 },
        tail := (t + 1) % U32,
        completed := (s.completed + 1) % U32 })

/-- `Mpmc::active_count`: relaxed read of `head_` minus relaxed read of
`completed_`, wrapping u32 subtraction. -/
def activeCount (s : QState) : Nat := usub s.head s.completed

/-- `Mpmc::wait_idle`: spin while the relaxed-loaded `head_` differs from
the acquire-loaded `completed_`; sequentially returns iff equal. -/
def waitIdle (s : QState) : Option Unit :=
  if s.head = s.completed then some () else none

end Mpmc

/-- An externally invokable queue operation of a sequential interleaving:
a producer `try_add` of a given job, or a consumer `run_next`. -/
inductive Op where
  | tryAdd (job : Nat)
  | runNext
deriving Repr, DecidableEq

/-- A queue state together with the ghost history of a sequential
interleaving: `accepted` lists the jobs accepted by `try_add` in
acceptance order, `executed` lists the jobs run by `run_next` in
claim order. -/
structure Trace where
  state : QState
  accepted : List Nat
  executed : List Nat
deriving Repr, DecidableEq

/-- The initial trace: freshly initialized queue, empty history. -/
def initTrace (n : Nat) : Trace :=
  { state := initQ n, accepted := [], executed := [] }

namespace Spmc

/-- One sequential step of the SPMC queue, recording ghost history. -/
def step (n : Nat) (op : Op) (tr : Trace) : Option Trace :=
  match op with
  | .tryAdd j =>
    match tryAdd n j tr.state with
    | (true, s1) => some { tr with state := s1, accepted := tr.accepted ++ [j] }
    | (false, s1) => some { tr with state := s1 }
  | .runNext =>
    match runNext n tr.state with
    | none => none
    | some (_, none, s1) => some { tr with state := s1 }
    | some (_, some j, s1) =>
        some { tr with state := s1, executed := tr.executed ++ [j] }

/-- Run a list of operations sequentially on the SPMC queue. -/
def exec (n : Nat) : List Op → Trace → Option Trace
  | [], tr => some tr
  | op :: rest, tr =>
    match step n op tr with
    | none => none
    | some tr1 => exec n rest tr1

/-- Apply `Spmc::try_add` once per job of a list, collecting the returned
booleans (used for the full-queue scenario: producers only, no consumer). -/
def tryAddRun (n : Nat) : List Nat → QState → List Bool × QState
  | [], s => ([], s)
  | j :: js, s =>
    match tryAdd n j s with
    | (ok, s1) =>
      match tryAddRun n js s1 with
      | (rs, s2) => (ok :: rs, s2)

end Spmc

namespace Mpmc

/-- One sequential step of the MPMC queue, recording ghost history;
`none` when the underlying operation diverges sequentially. -/
def step (n : Nat) (op : Op) (tr : Trace) : Option Trace :=
  match op with
  | .tryAdd j =>
    match tryAdd n j tr.state with
    | none => none
    | some (true, s1) => some { tr with state := s1, accepted := tr.accepted ++ [j] }
    | some (false, s1) => some { tr with state := s1 }
  | .runNext =>
    match runNext n tr.state with
    | none => none
    | some (_, none, s1) => some { tr with state := s1 }
    | some (_, some j, s1) =>
        some { tr with state := s1, executed := tr.executed ++ [j] }

/-- Run a list of operations sequentially on the MPMC queue. -/
def exec (n : Nat) : List Op → Trace → Option Trace
  | [], tr => some tr
  | op :: rest, tr =>
    match step n op tr with
    | none => none
    | some tr1 => exec n rest tr1

/-- Apply `Mpmc::try_add` once per job of a list, collecting the returned
booleans; `none` if some call diverges sequentially. -/
def tryAddRun (n : Nat) : List Nat → QState → Option (List Bool × QState)
  | [], s => some ([], s)
  | j :: js, s =>
    match tryAdd n j s with
    | none => none
    | some (ok, s1) =>
      match tryAddRun n js s1 with
      | none => none
      | some (rs, s2) => some (ok :: rs, s2)

end Mpmc

/-! ### The reachability invariant

A reachable sequential state is characterized against the ghost history:
`A` the jobs accepted so far (in order), `E` the jobs executed so far, and
a base offset `b` (the common initial value of the counters: `0` after
`init()`, or a seeded value for the wrap-around scenario).  Writing
`e = b + E.length` and `a = b + A.length`, the counters are `e` and `a`
mod `2^32`, and each global slot position `j` in the window `[e, e + n)`
determines slot `j % n`: filled (`sequence = j + 1` mod `2^32`, holding
accepted job number `j - b`) when `j < a`, free (`sequence = j` mod
`2^32`) otherwise. -/

structure QInv (n b : Nat) (A E : List Nat) (s : QState) : Prop where
  slen : s.slots.length = n
  hhead : s.head = (b + A.length) % U32
  htail : s.tail = (b + E.length) % U32
  hcomp : s.completed = (b + E.length) % U32
  hpre : E = A.take E.length
  hle : E.length ≤ A.length
  hcap : A.length ≤ E.length + n
  hslot : ∀ j, b + E.length ≤ j → j < b + E.length + n →
    if j < b + A.length then
      (s.slots.getD (j % n) default).sequence = (j + 1) % U32 ∧
      (s.slots.getD (j % n) default).job = A.getD (j - b) 0
    else (s.slots.getD (j % n) default).sequence = j % U32

/-- The trace-level invariant: the queue state is explained by the ghost
history. -/
abbrev TrInv (n b : Nat) (tr : Trace) : Prop :=
  QInv n b tr.accepted tr.executed tr.state

/-- The reachable trace used as the C2 witness input: a size-2 SPMC queue
after one accepted job. -/
def witTrace : Trace :=
  { state := { slots := [⟨7, 1⟩, ⟨0, 1⟩], head := 1, tail := 0, completed := 0 },
    accepted := [7], executed := [] }

/-- The trace of a SPMC queue of capacity 2^31 after 2^31 accepted jobs
(the queue is exactly full). -/
def c2FullTrace : Trace :=
  (Spmc.exec 2147483648 (List.replicate 2147483648 (Op.tryAdd 0))
    (initTrace 2147483648)).getD (initTrace 2147483648)

/-- Scenario S4: MPMC queue of capacity 4 seeded with
`head = tail = completed = 0xFFFFFFFC` and matching slot sequences
`0xFFFFFFFC .. 0xFFFFFFFF` (slot `i` in FREE state for the lap ending at
the 32-bit wrap). -/
def s4State : QState :=
  { slots := [⟨0, 4294967292⟩, ⟨0, 4294967293⟩, ⟨0, 4294967294⟩, ⟨0, 4294967295⟩],
    head := 4294967292, tail := 4294967292, completed := 4294967292 }

/-- Ten submissions interleaved with ten executions on the seeded queue. -/
def s4Ops : List Op :=
  [Op.tryAdd 0, Op.runNext, Op.tryAdd 1, Op.runNext, Op.tryAdd 2, Op.runNext,
   Op.tryAdd 3, Op.runNext, Op.tryAdd 4, Op.runNext, Op.tryAdd 5, Op.runNext,
   Op.tryAdd 6, Op.runNext, Op.tryAdd 7, Op.runNext, Op.tryAdd 8, Op.runNext,
   Op.tryAdd 9, Op.runNext]

/-- A queue object as it sits in a zero-initialized data section before
`init()` was ever called: all counters zero and every slot's sequence zero. -/
def zeroQ (n : Nat) : QState :=
  { slots := List.replicate n ⟨0, 0⟩, head := 0, tail := 0, completed := 0 }

/-- A state whose head slot is not free: both `try_add` variants reject. -/
def fullWitState : QState :=
  { slots := [⟨0, 9⟩, ⟨0, 0⟩], head := 1, tail := 0, completed := 0 }

/-! ### Arithmetic helper lemmas -/

theorem U32_pos : 0 < U32 := by simp [U32]

theorem toI32_of_lt {x : Nat} (h : x < 2147483648) : toI32 x = (x : Int) := by
  have hx : x % U32 = x := Nat.mod_eq_of_lt (by simp only [U32]; omega)
  simp [toI32, hx, h]

theorem toI32_of_ge {x : Nat} (h1 : 2147483648 ≤ x) (h2 : x < U32) :
    toI32 x = (x : Int) - (U32 : Int) := by
  have hx : x % U32 = x := Nat.mod_eq_of_lt h2
  simp only [toI32, hx]
  rw [if_neg (by omega)]

theorem toI32_nonneg_iff {x : Nat} (h2 : x < U32) :
    0 ≤ toI32 x ↔ x < 2147483648 := by
  rcases Nat.lt_or_ge x 2147483648 with h | h
  · rw [toI32_of_lt h]
    constructor
    · intro _
      exact h
    · intro _
      omega
  · rw [toI32_of_ge h h2]
    simp only [U32] at h2 ⊢
    constructor
    · intro hc
      omega
    · intro hc
      omega

theorem usub_lt (a b : Nat) : usub a b < U32 :=
  Nat.mod_lt _ U32_pos

theorem usub_self_mod (x : Nat) : usub ((x + 1) % U32) ((x % U32 + 1) % U32) = 0 := by
  simp only [usub, U32]
  omega

theorem usub_back_one (x : Nat) : usub (x % U32) ((x % U32 + 1) % U32) = U32 - 1 := by
  simp only [usub, U32]
  omega

theorem usub_mod_mod (a b : Nat) : usub (a % U32) (b % U32) = usub a b := by
  simp only [usub, U32]
  omega

theorem usub_sub_of_le {a b : Nat} (h : b ≤ a) (h2 : a - b < U32) :
    usub a b = a - b := by
  simp only [usub, U32] at h2 ⊢
  omega

theorem usub_shift (c a b : Nat) (hb : 0 < b) (hab : a < b) (hbu : b ≤ U32) :
    usub ((c + a) % U32) ((c + b) % U32) = U32 - (b - a) := by
  simp only [usub, U32] at hbu ⊢
  omega

/-- Distinct numbers within a window of `n` consecutive values have distinct
residues modulo `n`. -/
theorem mod_injOn_window {n m j1 j2 : Nat} (h1 : m ≤ j1) (h2 : j1 < m + n)
    (h3 : m ≤ j2) (h4 : j2 < m + n) (he : j1 % n = j2 % n) : j1 = j2 := by
  rcases Nat.le_total j1 j2 with hle | hle
  · have hdvd : n ∣ j2 - j1 := (Nat.modEq_iff_dvd' hle).mp he
    have hlt : j2 - j1 < n := by omega
    have := Nat.eq_zero_of_dvd_of_lt hdvd
    rcases Nat.eq_zero_or_pos (j2 - j1) with h0 | h0
    · omega
    · exact absurd hlt (by have := Nat.le_of_dvd h0 hdvd; omega)
  · have hdvd : n ∣ j1 - j2 := (Nat.modEq_iff_dvd' hle).mp he.symm
    have hlt : j1 - j2 < n := by omega
    rcases Nat.eq_zero_or_pos (j1 - j2) with h0 | h0
    · omega
    · exact absurd hlt (by have := Nat.le_of_dvd h0 hdvd; omega)

/-- Every residue `i < n` is attained in the window `[m, m + n)`. -/
theorem window_mem {n : Nat} (m i : Nat) (hi : i < n) :
    ∃ j, m ≤ j ∧ j < m + n ∧ j % n = i := by
  have hn : 0 < n := by omega
  have hmn : m % n < n := Nat.mod_lt m hn
  by_cases hc : m % n ≤ i
  · refine ⟨m + (i - m % n), by omega, by omega, ?_⟩
    rw [Nat.add_mod, Nat.mod_eq_of_lt (show i - m % n < n by omega),
      Nat.mod_eq_of_lt (show m % n + (i - m % n) < n by omega)]
    omega
  · refine ⟨m + (i + n - m % n), by omega, by omega, ?_⟩
    rw [Nat.add_mod, Nat.mod_eq_of_lt (show i + n - m % n < n by omega),
      show m % n + (i + n - m % n) = i + n by omega, Nat.add_mod_right]
    exact Nat.mod_eq_of_lt hi

theorem dvd_mod_mod {a n m : Nat} (h : n ∣ m) : a % m % n = a % n :=
  Nat.mod_mod_of_dvd a h

/-! ### List access helper lemmas -/

theorem getD_set_self {α : Type} (l : List α) (i : Nat) (v d : α) (h : i < l.length) :
    (l.set i v).getD i d = v := by
  simp [List.getD_eq_getElem?_getD, List.getElem?_set_self', h]

theorem getD_set_ne {α : Type} (l : List α) (i k : Nat) (v d : α) (hik : i ≠ k) :
    (l.set i v).getD k d = l.getD k d := by
  simp [List.getD_eq_getElem?_getD, List.getElem?_set_ne hik]

theorem getD_append_left {α : Type} (l : List α) (i : Nat) (x d : α) (h : i < l.length) :
    (l ++ [x]).getD i d = l.getD i d := by
  simp [List.getD_eq_getElem?_getD, List.getElem?_append_left h]

theorem getD_append_length {α : Type} (l : List α) (x d : α) :
    (l ++ [x]).getD l.length d = x := by
  simp [List.getD_eq_getElem?_getD]

theorem take_succ_getD (l : List Nat) (k : Nat) (h : k < l.length) :
    l.take (k + 1) = l.take k ++ [l.getD k 0] := by
  rw [List.take_succ]
  simp [List.getElem?_eq_getElem h, List.getD_eq_getElem?_getD]

theorem inv_initQ {n : Nat} (hn2 : 1 < n) (hnu : n < U32) :
    QInv n 0 [] [] (initQ n) := by
  refine ⟨?_, ?_, ?_, ?_, ?_, ?_, ?_, ?_⟩
  · simp [initQ]
  · simp [initQ]
  · simp [initQ]
  · simp [initQ]
  · simp
  · simp
  · simp only [List.length_nil]
    omega
  · intro j h1 h2
    simp only [List.length_nil, Nat.add_zero, Nat.zero_add] at h1 h2 ⊢
    rw [if_neg (by omega)]
    have hjn : j % n = j := Nat.mod_eq_of_lt h2
    have hju : j % U32 = j := Nat.mod_eq_of_lt (by omega)
    rw [hjn, hju]
    simp [initQ, List.getD_eq_getElem?_getD, List.getElem?_map, List.getElem?_range h2]

/-! ### Branch equations for the operations -/

theorem spmc_tryAdd_eq_true {n j : Nat} {s : QState}
    (h : (s.slots.getD (s.head % n) default).sequence = s.head) :
    Spmc.tryAdd n j s =
      (true, { s with
        slots := s.slots.set (s.head % n) ⟨j, (s.head + 1) % U32⟩,
        head := (s.head + 1) % U32 }) := by
  simp only [Spmc.tryAdd]
  rw [if_neg (show ¬ _ ≠ _ from fun hc => hc h)]

theorem spmc_tryAdd_eq_false {n j : Nat} {s : QState}
    (h : (s.slots.getD (s.head % n) default).sequence ≠ s.head) :
    Spmc.tryAdd n j s = (false, s) := by
  simp only [Spmc.tryAdd]
  rw [if_pos h]

theorem spmc_runNext_eq_false {n : Nat} {s : QState}
    (h : toI32 (usub (s.slots.getD (s.tail % n) default).sequence
      ((s.tail + 1) % U32)) < 0) :
    Spmc.runNext n s = some (false, none, s) := by
  simp only [Spmc.runNext]
  rw [if_pos h]

theorem spmc_runNext_eq_true {n : Nat} {s : QState}
    (h : toI32 (usub (s.slots.getD (s.tail % n) default).sequence
      ((s.tail + 1) % U32)) = 0) :
    Spmc.runNext n s =
      some (true, some (s.slots.getD (s.tail % n) default).job,
        { s with
          slots := s.slots.set (s.tail % n)
            ⟨(s.slots.getD (s.tail % n) default).job, (s.tail + n) % U32⟩,
          tail := (s.tail + 1) % U32,
          completed := (s.completed + 1) % U32 }) := by
  simp only [Spmc.runNext]
  rw [if_neg (by omega), if_neg (by omega)]

theorem mpmc_tryAdd_eq_true {n j : Nat} {s : QState}
    (h : toI32 (usub (s.slots.getD (s.head % n) default).sequence s.head) = 0) :
    Mpmc.tryAdd n j s =
      some (true, { s with
        slots := s.slots.set (s.head % n) ⟨j, (s.head + 1) % U32⟩,
        head := (s.head + 1) % U32 }) := by
  simp only [Mpmc.tryAdd]
  rw [if_neg (by omega), if_neg (by omega)]

theorem mpmc_tryAdd_eq_false {n j : Nat} {s : QState}
    (h : toI32 (usub (s.slots.getD (s.head % n) default).sequence s.head) < 0) :
    Mpmc.tryAdd n j s = some (false, s) := by
  simp only [Mpmc.tryAdd]
  rw [if_neg (by omega), if_pos h]

theorem mpmc_runNext_eq_spmc (n : Nat) (s : QState) :
    Mpmc.runNext n s = Spmc.runNext n s := rfl

/-! ### Slot lookups under the invariant -/

theorem inv_head_idx {n b : Nat} {A E : List Nat} {s : QState}
    (hdvd : n ∣ U32) (hinv : QInv n b A E s) :
    s.head % n = (b + A.length) % n := by
  rw [hinv.hhead, dvd_mod_mod hdvd]

theorem inv_tail_idx {n b : Nat} {A E : List Nat} {s : QState}
    (hdvd : n ∣ U32) (hinv : QInv n b A E s) :
    s.tail % n = (b + E.length) % n := by
  rw [hinv.htail, dvd_mod_mod hdvd]

theorem inv_head_slot_free {n b : Nat} {A E : List Nat} {s : QState}
    (hdvd : n ∣ U32) (hinv : QInv n b A E s) (hroom : A.length < E.length + n) :
    (s.slots.getD (s.head % n) default).sequence = (b + A.length) % U32 := by
  have hle := hinv.hle
  have h := hinv.hslot (b + A.length) (by omega) (by omega)
  rw [if_neg (by omega)] at h
  rw [inv_head_idx hdvd hinv]
  exact h

theorem inv_head_slot_filled {n b : Nat} {A E : List Nat} {s : QState}
    (hn : 0 < n) (hdvd : n ∣ U32) (hinv : QInv n b A E s)
    (hfull : A.length = E.length + n) :
    (s.slots.getD (s.head % n) default).sequence = (b + E.length + 1) % U32 := by
  have h := hinv.hslot (b + E.length) (Nat.le_refl _) (by omega)
  rw [if_pos (by omega)] at h
  have hidx : s.head % n = (b + E.length) % n := by
    rw [inv_head_idx hdvd hinv, show b + A.length = b + E.length + n by omega,
      Nat.add_mod_right]
  rw [hidx]
  exact h.1

theorem inv_tail_slot_filled {n b : Nat} {A E : List Nat} {s : QState}
    (hdvd : n ∣ U32) (hinv : QInv n b A E s) (hne : E.length < A.length) :
    (s.slots.getD (s.tail % n) default).sequence = (b + E.length + 1) % U32 ∧
    (s.slots.getD (s.tail % n) default).job = A.getD E.length 0 := by
  have hcap := hinv.hcap
  have h := hinv.hslot (b + E.length) (Nat.le_refl _) (by omega)
  rw [if_pos (by omega)] at h
  rw [show b + E.length - b = E.length by omega] at h
  rw [inv_tail_idx hdvd hinv]
  exact h

theorem inv_tail_slot_free {n b : Nat} {A E : List Nat} {s : QState}
    (hn : 0 < n) (hdvd : n ∣ U32) (hinv : QInv n b A E s)
    (hempty : E.length = A.length) :
    (s.slots.getD (s.tail % n) default).sequence = (b + E.length) % U32 := by
  have h := hinv.hslot (b + E.length) (Nat.le_refl _) (by omega)
  rw [if_neg (by omega)] at h
  rw [inv_tail_idx hdvd hinv]
  exact h

/-! ### Preservation of the invariant (SPMC operations) -/

theorem toI32_zero : toI32 0 = 0 := by decide

theorem spmc_tryAdd_room {n b : Nat} {A E : List Nat} {s : QState} (j : Nat)
    (hn2 : 1 < n) (hdvd : n ∣ U32) (hnu : n < U32)
    (hinv : QInv n b A E s) (hroom : A.length < E.length + n) :
    Spmc.tryAdd n j s =
      (true, { s with
        slots := s.slots.set (s.head % n) ⟨j, (s.head + 1) % U32⟩,
        head := (s.head + 1) % U32 }) ∧
    QInv n b (A ++ [j]) E
      { s with
        slots := s.slots.set (s.head % n) ⟨j, (s.head + 1) % U32⟩,
        head := (s.head + 1) % U32 } := by
  have hle := hinv.hle
  have hcap := hinv.hcap
  have hseqeq : (s.slots.getD (s.head % n) default).sequence = s.head := by
    rw [inv_head_slot_free hdvd hinv hroom, hinv.hhead]
  have hidx : s.head % n = (b + A.length) % n := inv_head_idx hdvd hinv
  have hidxlt : s.head % n < n := Nat.mod_lt _ (by omega)
  refine ⟨spmc_tryAdd_eq_true hseqeq, ?_, ?_, ?_, ?_, ?_, ?_, ?_, ?_⟩
  · dsimp only
    rw [List.length_set, hinv.slen]
  · dsimp only
    rw [hinv.hhead]
    simp only [List.length_append, List.length_cons, List.length_nil]
    simp only [U32]
    omega
  · exact hinv.htail
  · exact hinv.hcomp
  · rw [List.take_append_of_le_length hle]
    exact hinv.hpre
  · simp only [List.length_append, List.length_cons, List.length_nil]
    omega
  · simp only [List.length_append, List.length_cons, List.length_nil]
    omega
  · intro j2 h1 h2
    dsimp only
    simp only [List.length_append, List.length_cons, List.length_nil] at h2 ⊢
    by_cases hc : j2 % n = s.head % n
    · have hj2 : j2 = b + A.length := by
        apply mod_injOn_window h1 h2 (by omega) (by omega)
        rw [hc, hidx]
      rw [if_pos (by omega), hc,
        getD_set_self _ _ _ _ (by rw [hinv.slen]; exact hidxlt)]
      constructor
      · show (s.head + 1) % U32 = (j2 + 1) % U32
        rw [hinv.hhead, hj2]
        simp only [U32]
        omega
      · show j = (A ++ [j]).getD (j2 - b) 0
        rw [hj2, show b + A.length - b = A.length by omega]
        exact (getD_append_length A j 0).symm
    · rw [getD_set_ne _ _ _ _ _ (fun he => hc he.symm)]
      have hne : j2 ≠ b + A.length := fun he => hc (by rw [he, hidx])
      have hold := hinv.hslot j2 h1 (by omega)
      by_cases hcc : j2 < b + A.length
      · rw [if_pos (by omega)]
        rw [if_pos hcc] at hold
        exact ⟨hold.1, by rw [getD_append_left _ _ _ _ (by omega)]; exact hold.2⟩
      · rw [if_neg (by omega)]
        rw [if_neg hcc] at hold
        exact hold

theorem spmc_tryAdd_fullqueue {n b : Nat} {A E : List Nat} {s : QState} (j : Nat)
    (hn2 : 1 < n) (hdvd : n ∣ U32) (hnu : n < U32)
    (hinv : QInv n b A E s) (hfull : A.length = E.length + n) :
    Spmc.tryAdd n j s = (false, s) := by
  apply spmc_tryAdd_eq_false
  rw [inv_head_slot_filled (by omega) hdvd hinv hfull, hinv.hhead, hfull]
  simp only [U32] at hnu ⊢
  omega

theorem spmc_runNext_empty {n b : Nat} {A E : List Nat} {s : QState}
    (hn2 : 1 < n) (hdvd : n ∣ U32) (hinv : QInv n b A E s)
    (hempty : E.length = A.length) :
    Spmc.runNext n s = some (false, none, s) := by
  apply spmc_runNext_eq_false
  rw [inv_tail_slot_free (by omega) hdvd hinv hempty, hinv.htail, usub_back_one,
    toI32_of_ge (by simp only [U32]; omega) (by simp only [U32]; omega)]
  simp only [U32]
  omega

theorem spmc_runNext_ready {n b : Nat} {A E : List Nat} {s : QState}
    (hn2 : 1 < n) (hdvd : n ∣ U32) (hnu : n < U32)
    (hinv : QInv n b A E s) (hrdy : E.length < A.length) :
    Spmc.runNext n s =
      some (true, some (A.getD E.length 0),
        { s with
          slots := s.slots.set (s.tail % n)
            ⟨A.getD E.length 0, (s.tail + n) % U32⟩,
          tail := (s.tail + 1) % U32,
          completed := (s.completed + 1) % U32 }) ∧
    QInv n b A (E ++ [A.getD E.length 0])
      { s with
        slots := s.slots.set (s.tail % n)
          ⟨A.getD E.length 0, (s.tail + n) % U32⟩,
        tail := (s.tail + 1) % U32,
        completed := (s.completed + 1) % U32 } := by
  have hle := hinv.hle
  have hcap := hinv.hcap
  have hn : 0 < n := by omega
  obtain ⟨hts, htj⟩ := inv_tail_slot_filled hdvd hinv hrdy
  have hidxt : s.tail % n = (b + E.length) % n := inv_tail_idx hdvd hinv
  have hdiff : toI32 (usub (s.slots.getD (s.tail % n) default).sequence
      ((s.tail + 1) % U32)) = 0 := by
    rw [hts, hinv.htail, usub_self_mod, toI32_zero]
  have hrun := spmc_runNext_eq_true hdiff
  rw [htj] at hrun
  refine ⟨hrun, ?_, ?_, ?_, ?_, ?_, ?_, ?_, ?_⟩
  · dsimp only
    rw [List.length_set, hinv.slen]
  · exact hinv.hhead
  · dsimp only
    rw [hinv.htail]
    simp only [List.length_append, List.length_cons, List.length_nil]
    simp only [U32]
    omega
  · dsimp only
    rw [hinv.hcomp]
    simp only [List.length_append, List.length_cons, List.length_nil]
    simp only [U32]
    omega
  · simp only [List.length_append, List.length_cons, List.length_nil]
    rw [take_succ_getD A E.length hrdy, ← hinv.hpre]
  · simp only [List.length_append, List.length_cons, List.length_nil]
    omega
  · simp only [List.length_append, List.length_cons, List.length_nil]
    omega
  · intro j2 h1 h2
    dsimp only
    simp only [List.length_append, List.length_cons, List.length_nil] at h1 h2
    by_cases hc : j2 % n = s.tail % n
    · have hj2 : j2 = b + E.length + n := by
        apply mod_injOn_window h1 h2 (by omega) (by omega)
        rw [hc, hidxt, Nat.add_mod_right]
      rw [if_neg (by omega), hc,
        getD_set_self _ _ _ _ (by rw [hinv.slen]; exact Nat.mod_lt _ hn)]
      show (s.tail + n) % U32 = j2 % U32
      rw [hinv.htail, hj2]
      simp only [U32]
      omega
    · rw [getD_set_ne _ _ _ _ _ (fun he => hc he.symm)]
      have hj2ne : j2 ≠ b + E.length + n := fun he =>
        hc (by rw [he, Nat.add_mod_right, ← hidxt])
      exact hinv.hslot j2 (by omega) (by omega)

theorem usub_self (x : Nat) : usub x x = 0 := by
  simp only [usub, U32]
  omega

/-- A power-of-two divisor of `2^32` other than `2^32` itself is at most
`2^31`. -/
theorem dvd_le_half {n : Nat} (hdvd : n ∣ U32) (hnu : n < U32) :
    n ≤ 2147483648 := by
  obtain ⟨k, hk⟩ := hdvd
  rcases Nat.lt_or_ge k 2 with hk2 | hk2
  · interval_cases k
    · simp only [U32] at hk
      omega
    · simp only [U32] at hk hnu
      omega
  · have h2 : n * 2 ≤ n * k := Nat.mul_le_mul_left n hk2
    rw [← hk] at h2
    simp only [U32] at h2
    omega

/-! ### MPMC operations agree with SPMC on reachable states -/

theorem mpmc_tryAdd_agree {n b : Nat} {A E : List Nat} {s : QState} (j : Nat)
    (hn2 : 1 < n) (hdvd : n ∣ U32) (hnu : n < U32) (hinv : QInv n b A E s) :
    Mpmc.tryAdd n j s = some (Spmc.tryAdd n j s) := by
  rcases Nat.lt_or_ge A.length (E.length + n) with hroom | hge
  · have hdiff : toI32 (usub (s.slots.getD (s.head % n) default).sequence s.head) = 0 := by
      rw [inv_head_slot_free hdvd hinv hroom, hinv.hhead, usub_self, toI32_zero]
    rw [mpmc_tryAdd_eq_true hdiff, (spmc_tryAdd_room j hn2 hdvd hnu hinv hroom).1]
  · have hfull : A.length = E.length + n := Nat.le_antisymm hinv.hcap hge
    have hhalf := dvd_le_half hdvd hnu
    have hdiff : toI32 (usub (s.slots.getD (s.head % n) default).sequence s.head) < 0 := by
      rw [inv_head_slot_filled (by omega) hdvd hinv hfull, hinv.hhead, hfull,
        show b + (E.length + n) = b + E.length + n by omega,
        usub_shift (b + E.length) 1 n (by omega) hn2 (Nat.le_of_lt hnu),
        toI32_of_ge (by simp only [U32] at hnu ⊢; omega) (by simp only [U32] at hnu ⊢; omega)]
      simp only [U32] at hnu ⊢
      omega
    rw [mpmc_tryAdd_eq_false hdiff, spmc_tryAdd_fullqueue j hn2 hdvd hnu hinv hfull]

theorem spmc_step_inv {n b : Nat} {tr : Trace}
    (hn2 : 1 < n) (hdvd : n ∣ U32) (hnu : n < U32) (hinv : TrInv n b tr) (op : Op) :
    ∃ tr1, Spmc.step n op tr = some tr1 ∧ TrInv n b tr1 := by
  cases op with
  | tryAdd j =>
    rcases Nat.lt_or_ge tr.accepted.length (tr.executed.length + n) with hroom | hge
    · obtain ⟨heq, hinv1⟩ := spmc_tryAdd_room j hn2 hdvd hnu hinv hroom
      exact ⟨{ state := _, accepted := tr.accepted ++ [j], executed := tr.executed },
        by simp only [Spmc.step, heq], hinv1⟩
    · have hfull : tr.accepted.length = tr.executed.length + n :=
        Nat.le_antisymm hinv.hcap hge
      have heq := spmc_tryAdd_fullqueue j hn2 hdvd hnu hinv hfull
      exact ⟨{ state := tr.state, accepted := tr.accepted, executed := tr.executed },
        by simp only [Spmc.step, heq], hinv⟩
  | runNext =>
    rcases Nat.lt_or_ge tr.executed.length tr.accepted.length with hrdy | hge
    · obtain ⟨heq, hinv1⟩ := spmc_runNext_ready hn2 hdvd hnu hinv hrdy
      refine ⟨{ state := _, accepted := tr.accepted, executed := tr.executed ++ [tr.accepted.getD tr.executed.length 0] }, ?_, hinv1⟩
      simp only [Spmc.step, heq]
    · have hempty : tr.executed.length = tr.accepted.length :=
        Nat.le_antisymm hinv.hle hge
      have heq := spmc_runNext_empty hn2 hdvd hinv hempty
      exact ⟨{ state := tr.state, accepted := tr.accepted, executed := tr.executed },
        by simp only [Spmc.step, heq], hinv⟩

theorem spmc_exec_inv {n b : Nat} (hn2 : 1 < n) (hdvd : n ∣ U32) (hnu : n < U32) :
    ∀ (ops : List Op) (tr : Trace), TrInv n b tr →
      ∃ tr1, Spmc.exec n ops tr = some tr1 ∧ TrInv n b tr1 := by
  intro ops
  induction ops with
  | nil => exact fun tr hinv => ⟨tr, rfl, hinv⟩
  | cons op rest ih =>
    intro tr hinv
    obtain ⟨tr1, hstep, hinv1⟩ := spmc_step_inv hn2 hdvd hnu hinv op
    obtain ⟨tr2, hexec, hinv2⟩ := ih tr1 hinv1
    exact ⟨tr2, by simp only [Spmc.exec, hstep, hexec], hinv2⟩

theorem mpmc_step_agree {n b : Nat} {tr : Trace}
    (hn2 : 1 < n) (hdvd : n ∣ U32) (hnu : n < U32) (hinv : TrInv n b tr) (op : Op) :
    Mpmc.step n op tr = Spmc.step n op tr := by
  cases op with
  | tryAdd j =>
    simp only [Mpmc.step, Spmc.step, mpmc_tryAdd_agree j hn2 hdvd hnu hinv]
    rcases Spmc.tryAdd n j tr.state with ⟨ok, s1⟩
    cases ok <;> rfl
  | runNext =>
    simp only [Mpmc.step, Spmc.step, mpmc_runNext_eq_spmc]

theorem mpmc_exec_agree {n b : Nat} (hn2 : 1 < n) (hdvd : n ∣ U32) (hnu : n < U32) :
    ∀ (ops : List Op) (tr : Trace), TrInv n b tr →
      Mpmc.exec n ops tr = Spmc.exec n ops tr := by
  intro ops
  induction ops with
  | nil => exact fun tr _ => rfl
  | cons op rest ih =>
    intro tr hinv
    obtain ⟨tr1, hstep, hinv1⟩ := spmc_step_inv hn2 hdvd hnu hinv op
    rw [Mpmc.exec, Spmc.exec, mpmc_step_agree hn2 hdvd hnu hinv op, hstep]
    exact ih tr1 hinv1

/-- Draining: from any reachable state, as many `run_next` calls as there
are pending jobs execute exactly the pending jobs, leaving the executed
history equal to the accepted history. -/
theorem spmc_drain {n b : Nat} (hn2 : 1 < n) (hdvd : n ∣ U32) (hnu : n < U32) :
    ∀ (k : Nat) (tr : Trace), TrInv n b tr →
      k = tr.accepted.length - tr.executed.length →
      ∃ tr1, Spmc.exec n (List.replicate k Op.runNext) tr = some tr1 ∧
        TrInv n b tr1 ∧ tr1.accepted = tr.accepted ∧ tr1.executed = tr1.accepted := by
  intro k
  induction k with
  | zero =>
    intro tr hinv hk
    have hlen : tr.executed.length = tr.accepted.length :=
      Nat.le_antisymm hinv.hle (by omega)
    refine ⟨tr, rfl, hinv, rfl, ?_⟩
    rw [hinv.hpre, hlen, List.take_length]
  | succ k ih =>
    intro tr hinv hk
    have hrdy : tr.executed.length < tr.accepted.length := by omega
    obtain ⟨heq, hinv1⟩ := spmc_runNext_ready hn2 hdvd hnu hinv hrdy
    obtain ⟨tr1, hexec, hinv2, hacc, hexeq⟩ :=
      ih { state := _, accepted := tr.accepted,
           executed := tr.executed ++ [tr.accepted.getD tr.executed.length 0] }
        hinv1 (by simp only [List.length_append, List.length_cons, List.length_nil]; omega)
    refine ⟨tr1, ?_, hinv2, hacc, hexeq⟩
    rw [List.replicate_succ]
    simp only [Spmc.exec, Spmc.step, heq]
    exact hexec

/-- Filling: from any reachable state with enough free capacity, a batch of
`try_add` calls all succeed. -/
theorem spmc_fill {n b : Nat} (hn2 : 1 < n) (hdvd : n ∣ U32) (hnu : n < U32) :
    ∀ (js : List Nat) (A E : List Nat) (s : QState), QInv n b A E s →
      A.length + js.length ≤ E.length + n →
      ∃ s1, Spmc.tryAddRun n js s = (List.replicate js.length true, s1) ∧
        QInv n b (A ++ js) E s1 := by
  intro js
  induction js with
  | nil =>
    intro A E s hinv _
    exact ⟨s, rfl, by simpa using hinv⟩
  | cons j js ih =>
    intro A E s hinv hcap
    have hroom : A.length < E.length + n := by
      simp only [List.length_cons] at hcap
      omega
    obtain ⟨heq, hinv1⟩ := spmc_tryAdd_room j hn2 hdvd hnu hinv hroom
    obtain ⟨s2, hrun, hinv2⟩ := ih (A ++ [j]) E _ hinv1
      (by simp only [List.length_append, List.length_cons, List.length_nil] at hcap ⊢; omega)
    refine ⟨s2, ?_, by simpa using hinv2⟩
    simp only [Spmc.tryAddRun, heq, hrun, List.length_cons, List.replicate_succ]

/-- Splitting a batch of `try_add` calls. -/
theorem spmc_tryAddRun_append (n : Nat) :
    ∀ (l1 l2 : List Nat) (s : QState),
      Spmc.tryAddRun n (l1 ++ l2) s =
        ((Spmc.tryAddRun n l1 s).1 ++ (Spmc.tryAddRun n l2 (Spmc.tryAddRun n l1 s).2).1,
          (Spmc.tryAddRun n l2 (Spmc.tryAddRun n l1 s).2).2) := by
  intro l1
  induction l1 with
  | nil => intro l2 s; rfl
  | cons j l1 ih =>
    intro l2 s
    simp only [List.cons_append, Spmc.tryAddRun]
    rcases Spmc.tryAdd n j s with ⟨ok, s1⟩
    simp only [List.append_eq, ih l2 s1]

theorem mpmc_tryAddRun_agree {n b : Nat} (hn2 : 1 < n) (hdvd : n ∣ U32) (hnu : n < U32) :
    ∀ (js A E : List Nat) (s : QState), QInv n b A E s →
      Mpmc.tryAddRun n js s = some (Spmc.tryAddRun n js s) := by
  intro js
  induction js with
  | nil => intro A E s _; rfl
  | cons j js ih =>
    intro A E s hinv
    rcases Nat.lt_or_ge A.length (E.length + n) with hroom | hge
    · obtain ⟨heq, hinv1⟩ := spmc_tryAdd_room j hn2 hdvd hnu hinv hroom
      obtain ⟨rs2, s2, hrs⟩ :
          ∃ rs2 s2, Spmc.tryAddRun n js
            { s with
              slots := s.slots.set (s.head % n) ⟨j, (s.head + 1) % U32⟩,
              head := (s.head + 1) % U32 } = (rs2, s2) := ⟨_, _, rfl⟩
      simp only [Mpmc.tryAddRun, Spmc.tryAddRun,
        mpmc_tryAdd_agree j hn2 hdvd hnu hinv, heq, hrs, ih _ _ _ hinv1]
    · have hfull : A.length = E.length + n := Nat.le_antisymm hinv.hcap hge
      have heq := spmc_tryAdd_fullqueue j hn2 hdvd hnu hinv hfull
      obtain ⟨rs2, s2, hrs⟩ : ∃ rs2 s2, Spmc.tryAddRun n js s = (rs2, s2) := ⟨_, _, rfl⟩
      simp only [Mpmc.tryAddRun, Spmc.tryAddRun,
        mpmc_tryAdd_agree j hn2 hdvd hnu hinv, heq, hrs, ih _ _ _ hinv]

/-! ### Further general helpers -/

theorem spmc_runNext_eq_none {n : Nat} {s : QState}
    (h : 0 < toI32 (usub (s.slots.getD (s.tail % n) default).sequence
      ((s.tail + 1) % U32))) :
    Spmc.runNext n s = none := by
  simp only [Spmc.runNext]
  rw [if_neg (by omega), if_pos h]

theorem mpmc_tryAdd_eq_none {n j : Nat} {s : QState}
    (h : 0 < toI32 (usub (s.slots.getD (s.head % n) default).sequence s.head)) :
    Mpmc.tryAdd n j s = none := by
  simp only [Mpmc.tryAdd]
  rw [if_pos h]

theorem spmc_tryAdd_true_elim {n j : Nat} {s s1 : QState}
    (h : Spmc.tryAdd n j s = (true, s1)) :
    (s.slots.getD (s.head % n) default).sequence = s.head ∧
    s1 = { s with
      slots := s.slots.set (s.head % n) ⟨j, (s.head + 1) % U32⟩,
      head := (s.head + 1) % U32 } := by
  by_cases hc : (s.slots.getD (s.head % n) default).sequence = s.head
  · rw [spmc_tryAdd_eq_true hc] at h
    simp only [Prod.mk.injEq, true_and] at h
    exact ⟨hc, h.symm⟩
  · rw [spmc_tryAdd_eq_false hc] at h
    simp only [Prod.mk.injEq] at h
    exact absurd h.1 (by simp)

theorem spmc_runNext_true_elim {n : Nat} {s s1 : QState} {r : Option Nat}
    (h : Spmc.runNext n s = some (true, r, s1)) :
    toI32 (usub (s.slots.getD (s.tail % n) default).sequence
      ((s.tail + 1) % U32)) = 0 ∧
    r = some (s.slots.getD (s.tail % n) default).job ∧
    s1 = { s with
      slots := s.slots.set (s.tail % n)
        ⟨(s.slots.getD (s.tail % n) default).job, (s.tail + n) % U32⟩,
      tail := (s.tail + 1) % U32,
      completed := (s.completed + 1) % U32 } := by
  rcases lt_trichotomy (toI32 (usub (s.slots.getD (s.tail % n) default).sequence
      ((s.tail + 1) % U32))) 0 with hd | hd | hd
  · rw [spmc_runNext_eq_false hd] at h
    simp at h
  · rw [spmc_runNext_eq_true hd] at h
    simp only [Option.some.injEq, Prod.mk.injEq, true_and] at h
    exact ⟨hd, h.1.symm, h.2.symm⟩
  · rw [spmc_runNext_eq_none hd] at h
    simp at h

theorem usub_offset_sub {b a e : Nat} (h1 : e ≤ a) (h2 : a - e < U32) :
    usub ((b + a) % U32) ((b + e) % U32) = a - e := by
  simp only [usub, U32] at h2 ⊢
  omega

theorem spmc_exec_append (n : Nat) :
    ∀ (l1 l2 : List Op) (tr : Trace),
      Spmc.exec n (l1 ++ l2) tr =
        match Spmc.exec n l1 tr with
        | none => none
        | some tr1 => Spmc.exec n l2 tr1 := by
  intro l1
  induction l1 with
  | nil => intro l2 tr; rfl
  | cons op l1 ih =>
    intro l2 tr
    simp only [List.cons_append, Spmc.exec]
    rcases Spmc.step n op tr with _ | tr1
    · rfl
    · exact ih l2 tr1

theorem spmc_exec_tryAdds {n b : Nat} (hn2 : 1 < n) (hdvd : n ∣ U32) (hnu : n < U32) :
    ∀ (k : Nat) (tr : Trace), TrInv n b tr →
      tr.accepted.length + k ≤ tr.executed.length + n →
      ∃ tr1, Spmc.exec n (List.replicate k (Op.tryAdd 0)) tr = some tr1 ∧
        TrInv n b tr1 ∧ tr1.accepted = tr.accepted ++ List.replicate k 0 ∧
        tr1.executed = tr.executed := by
  intro k
  induction k with
  | zero => intro tr hinv _; exact ⟨tr, rfl, hinv, by simp, rfl⟩
  | succ k ih =>
    intro tr hinv hcap
    obtain ⟨heq, hinv1⟩ := spmc_tryAdd_room 0 hn2 hdvd hnu hinv (by omega)
    obtain ⟨tr1, hexec, hinv2, hacc, hexe⟩ :=
      ih { state := _, accepted := tr.accepted ++ [0], executed := tr.executed }
        hinv1 (by simp only [List.length_append, List.length_cons, List.length_nil]; omega)
    refine ⟨tr1, ?_, hinv2, ?_, hexe⟩
    · rw [List.replicate_succ]
      simp only [Spmc.exec, Spmc.step, heq]
      exact hexec
    · rw [hacc]
      simp [List.replicate_succ]

/-! ### Claim theorems -/

/-- C1: on an initialized queue (SPMC and MPMC), in every sequential
interleaving of `try_add` and `run_next` calls, the executed jobs are
exactly a prefix of the accepted jobs in acceptance order (no job lost,
none duplicated, FIFO by slot claim); issuing one further `run_next` per
pending job executes every accepted job exactly once, after which
`completed` equals `head` and `wait_idle` returns. -/
theorem c1_accepted_jobs_run_exactly_once_in_fifo_order (n : Nat)
    (hn2 : 1 < n) (hdvd : n ∣ U32) (hnu : n < U32) (ops : List Op) :
    (∃ tr tr2,
      Spmc.exec n ops (initTrace n) = some tr ∧
      tr.executed = tr.accepted.take tr.executed.length ∧
      tr.executed.length ≤ tr.accepted.length ∧
      Spmc.exec n
        (ops ++ List.replicate (tr.accepted.length - tr.executed.length) Op.runNext)
        (initTrace n) = some tr2 ∧
      tr2.accepted = tr.accepted ∧
      tr2.executed = tr.accepted ∧
      tr2.state.completed = tr2.state.head ∧
      Spmc.waitIdle tr2.state = some ()) ∧
    (∃ tr tr2,
      Mpmc.exec n ops (initTrace n) = some tr ∧
      tr.executed = tr.accepted.take tr.executed.length ∧
      tr.executed.length ≤ tr.accepted.length ∧
      Mpmc.exec n
        (ops ++ List.replicate (tr.accepted.length - tr.executed.length) Op.runNext)
        (initTrace n) = some tr2 ∧
      tr2.accepted = tr.accepted ∧
      tr2.executed = tr.accepted ∧
      tr2.state.completed = tr2.state.head ∧
      Mpmc.waitIdle tr2.state = some ()) := by
  have hinv0 : TrInv n 0 (initTrace n) := inv_initQ hn2 hnu
  obtain ⟨tr, hexec, hinv⟩ := spmc_exec_inv hn2 hdvd hnu ops (initTrace n) hinv0
  obtain ⟨tr2, hdrain, hinv2, hacc, hall⟩ :=
    spmc_drain hn2 hdvd hnu (tr.accepted.length - tr.executed.length) tr hinv rfl
  have hfullexec :
      Spmc.exec n
        (ops ++ List.replicate (tr.accepted.length - tr.executed.length) Op.runNext)
        (initTrace n) = some tr2 := by
    rw [spmc_exec_append, hexec]
    exact hdrain
  have hch : tr2.state.completed = tr2.state.head := by
    rw [hinv2.hcomp, hinv2.hhead, hall, hacc]
  refine ⟨⟨tr, tr2, hexec, hinv.hpre, hinv.hle, hfullexec, hacc, hall.trans hacc,
    hch, by simp [Spmc.waitIdle, hch]⟩,
    ⟨tr, tr2, ?_, hinv.hpre, hinv.hle, ?_, hacc, hall.trans hacc,
    hch, by simp [Mpmc.waitIdle, hch]⟩⟩
  · rw [mpmc_exec_agree hn2 hdvd hnu ops (initTrace n) hinv0]
    exact hexec
  · rw [mpmc_exec_agree hn2 hdvd hnu _ (initTrace n) hinv0]
    exact hfullexec

theorem c1_witness :
    (∃ tr tr2,
      Spmc.exec 2 [Op.tryAdd 5, Op.tryAdd 6, Op.runNext] (initTrace 2) = some tr ∧
      tr.executed = tr.accepted.take tr.executed.length ∧
      tr.executed.length ≤ tr.accepted.length ∧
      Spmc.exec 2
        ([Op.tryAdd 5, Op.tryAdd 6, Op.runNext] ++
          List.replicate (tr.accepted.length - tr.executed.length) Op.runNext)
        (initTrace 2) = some tr2 ∧
      tr2.accepted = tr.accepted ∧
      tr2.executed = tr.accepted ∧
      tr2.state.completed = tr2.state.head ∧
      Spmc.waitIdle tr2.state = some ()) ∧
    (∃ tr tr2,
      Mpmc.exec 2 [Op.tryAdd 5, Op.tryAdd 6, Op.runNext] (initTrace 2) = some tr ∧
      tr.executed = tr.accepted.take tr.executed.length ∧
      tr.executed.length ≤ tr.accepted.length ∧
      Mpmc.exec 2
        ([Op.tryAdd 5, Op.tryAdd 6, Op.runNext] ++
          List.replicate (tr.accepted.length - tr.executed.length) Op.runNext)
        (initTrace 2) = some tr2 ∧
      tr2.accepted = tr.accepted ∧
      tr2.executed = tr.accepted ∧
      tr2.state.completed = tr2.state.head ∧
      Mpmc.waitIdle tr2.state = some ()) :=
  c1_accepted_jobs_run_exactly_once_in_fifo_order 2 (by decide)
    (by decide) (by decide) [Op.tryAdd 5, Op.tryAdd 6, Op.runNext]

theorem exec_reachable_inv {n : Nat} (hn2 : 1 < n) (hdvd : n ∣ U32) (hnu : n < U32)
    {ops : List Op} {tr : Trace}
    (hexec : Spmc.exec n ops (initTrace n) = some tr ∨
      Mpmc.exec n ops (initTrace n) = some tr) :
    TrInv n 0 tr := by
  have hinv0 : TrInv n 0 (initTrace n) := inv_initQ hn2 hnu
  obtain ⟨tr1, heq, hinv1⟩ := spmc_exec_inv hn2 hdvd hnu ops (initTrace n) hinv0
  rcases hexec with h | h
  · rw [heq] at h
    injection h with h
    rw [← h]
    exact hinv1
  · rw [mpmc_exec_agree hn2 hdvd hnu ops (initTrace n) hinv0, heq] at h
    injection h with h
    rw [← h]
    exact hinv1

/-- C2 (amended): provided QueueSize is additionally below 2^31, every state
reachable by a sequential interleaving of the operations from the
initialized queue (SPMC or MPMC) satisfies `completed ≤ tail ≤ head` under
wrap-safe signed-difference 32-bit comparison; moreover a successful
`run_next` claims only a slot whose sequence shows it filled
(`sequence = tail + 1` mod 2^32), advances `tail` by one, and increments
`completed` exactly once. -/
theorem c2_counter_invariant_wrap_safe (n : Nat) (hn2 : 1 < n) (hdvd : n ∣ U32)
    (hhalf : n < 2147483648) (ops : List Op) (tr : Trace)
    (hexec : Spmc.exec n ops (initTrace n) = some tr ∨
      Mpmc.exec n ops (initTrace n) = some tr) :
    0 ≤ toI32 (usub tr.state.tail tr.state.completed) ∧
    0 ≤ toI32 (usub tr.state.head tr.state.tail) ∧
    0 ≤ toI32 (usub tr.state.head tr.state.completed) ∧
    (∀ r s1, Spmc.runNext n tr.state = some (true, r, s1) →
      (tr.state.slots.getD (tr.state.tail % n) default).sequence =
        (tr.state.tail + 1) % U32 ∧
      s1.tail = (tr.state.tail + 1) % U32 ∧
      s1.completed = (tr.state.completed + 1) % U32) ∧
    (∀ r s1, Mpmc.runNext n tr.state = some (true, r, s1) →
      (tr.state.slots.getD (tr.state.tail % n) default).sequence =
        (tr.state.tail + 1) % U32 ∧
      s1.tail = (tr.state.tail + 1) % U32 ∧
      s1.completed = (tr.state.completed + 1) % U32) := by
  have hnu : n < U32 := by simp only [U32] at hhalf ⊢; omega
  have hinv := exec_reachable_inv hn2 hdvd hnu hexec
  have hcap := hinv.hcap
  have hle := hinv.hle
  have hsub : usub tr.state.head tr.state.tail =
      tr.accepted.length - tr.executed.length := by
    rw [hinv.hhead, hinv.htail]
    exact usub_offset_sub hle (by simp only [U32]; omega)
  have himp : ∀ r s1, Spmc.runNext n tr.state = some (true, r, s1) →
      (tr.state.slots.getD (tr.state.tail % n) default).sequence =
        (tr.state.tail + 1) % U32 ∧
      s1.tail = (tr.state.tail + 1) % U32 ∧
      s1.completed = (tr.state.completed + 1) % U32 := by
    intro r s1 h
    obtain ⟨_, _, hs1⟩ := spmc_runNext_true_elim h
    have hrdy : tr.executed.length < tr.accepted.length := by
      by_contra hge
      have hempty : tr.executed.length = tr.accepted.length :=
        Nat.le_antisymm hle (by omega)
      rw [spmc_runNext_empty hn2 hdvd hinv hempty] at h
      simp at h
    obtain ⟨hseq, _⟩ := inv_tail_slot_filled hdvd hinv hrdy
    refine ⟨?_, by rw [hs1], by rw [hs1]⟩
    rw [hseq, hinv.htail]
    simp only [U32]
    omega
  refine ⟨?_, ?_, ?_, himp, ?_⟩
  · rw [hinv.htail, hinv.hcomp, usub_self, toI32_zero]
  · rw [hsub, toI32_of_lt (by omega)]
    positivity
  · rw [hinv.hhead, hinv.hcomp,
      usub_offset_sub hle (by simp only [U32]; omega), toI32_of_lt (by omega)]
    positivity
  · intro r s1 h
    rw [mpmc_runNext_eq_spmc] at h
    exact himp r s1 h

theorem c2_witness :
    0 ≤ toI32 (usub witTrace.state.tail witTrace.state.completed) ∧
    0 ≤ toI32 (usub witTrace.state.head witTrace.state.tail) ∧
    0 ≤ toI32 (usub witTrace.state.head witTrace.state.completed) :=
  have h := c2_counter_invariant_wrap_safe 2 (by decide)
    ⟨2147483648, by simp only [U32]⟩ (by decide) [Op.tryAdd 7] witTrace
    (Or.inl (by decide))
  ⟨h.1, h.2.1, h.2.2.1⟩

/-- C2 counterexample: QueueSize = 2^31 satisfies the power-of-two
constraint of the source, yet after 2^31 accepted `try_add` calls from the
initialized state (a reachable, externally observable point) the wrap-safe
signed difference `i32(head - tail)` equals -2^31, so `tail ≤ head` fails
under signed-difference comparison and the claimed invariant is violated. -/
theorem c2_counterexample_queue_size_two_pow_31 :
    (Spmc.exec 2147483648 (List.replicate 2147483648 (Op.tryAdd 0))
      (initTrace 2147483648)).isSome = true ∧
    toI32 (usub c2FullTrace.state.head c2FullTrace.state.tail) = -2147483648 := by
  have hn2 : (1 : Nat) < 2147483648 := by norm_num
  have hdvd : (2147483648 : Nat) ∣ U32 := ⟨2, by simp only [U32]⟩
  have hnu : (2147483648 : Nat) < U32 := by simp only [U32]; norm_num
  obtain ⟨tr, hexec, hinv, hacc, hexe⟩ :=
    spmc_exec_tryAdds hn2 hdvd hnu 2147483648 (initTrace 2147483648)
      (inv_initQ hn2 hnu) (by simp only [initTrace, List.length_nil]; omega)
  have htr : c2FullTrace = tr := by
    rw [c2FullTrace, hexec]
    rfl
  have hlen : tr.accepted.length = 2147483648 := by
    rw [hacc]
    simp only [initTrace, List.nil_append, List.length_replicate]
  have hlen2 : tr.executed.length = 0 := by
    rw [hexe]
    simp only [initTrace, List.length_nil]
  constructor
  · rw [hexec]
    rfl
  · rw [htr, hinv.hhead, hinv.htail, hlen, hlen2]
    decide

/-- C3: `init` puts every slot `i` in FREE(0) (`sequence = i`); in every
reachable state each slot `i` is FREE(k) (`sequence = i + k*n` mod 2^32) or
FILLED(k) (`sequence = i + k*n + 1` mod 2^32) for some lap `k`; a
successful `try_add` finds the claimed slot with `sequence = h` and leaves
it with `sequence = h + 1` (mod 2^32), and a successful `run_next` finds
the slot with `sequence = t + 1` and leaves it with `sequence = t + n`
(mod 2^32). -/
theorem c3_slot_state_machine (n : Nat) (hn2 : 1 < n) (hdvd : n ∣ U32)
    (hnu : n < U32) (ops : List Op) (tr : Trace)
    (hexec : Spmc.exec n ops (initTrace n) = some tr ∨
      Mpmc.exec n ops (initTrace n) = some tr) :
    (∀ i, i < n → ((initQ n).slots.getD i default).sequence = i) ∧
    (∀ i, i < n → ∃ k,
      (tr.state.slots.getD i default).sequence = (i + k * n) % U32 ∨
      (tr.state.slots.getD i default).sequence = (i + k * n + 1) % U32) ∧
    (∀ j s1, Spmc.tryAdd n j tr.state = (true, s1) →
      (tr.state.slots.getD (tr.state.head % n) default).sequence = tr.state.head ∧
      (s1.slots.getD (tr.state.head % n) default).sequence =
        (tr.state.head + 1) % U32) ∧
    (∀ r s1, Spmc.runNext n tr.state = some (true, r, s1) →
      (tr.state.slots.getD (tr.state.tail % n) default).sequence =
        (tr.state.tail + 1) % U32 ∧
      (s1.slots.getD (tr.state.tail % n) default).sequence =
        (tr.state.tail + n) % U32) := by
  have hinv := exec_reachable_inv hn2 hdvd hnu hexec
  have hle := hinv.hle
  have hcap := hinv.hcap
  refine ⟨?_, ?_, ?_, ?_⟩
  · intro i hi
    have hin : i % n = i := Nat.mod_eq_of_lt hi
    simp [initQ, List.getD_eq_getElem?_getD, List.getElem?_map,
      List.getElem?_range hi, hin]
  · intro i hi
    obtain ⟨j, hj1, hj2, hj3⟩ := window_mem tr.executed.length i hi
    have h := hinv.hslot j (by omega) (by omega)
    have hdm := Nat.div_add_mod j n
    rw [hj3] at hdm h
    have hmul : i + j / n * n = j := by
      rw [Nat.mul_comm]
      omega
    refine ⟨j / n, ?_⟩
    by_cases hc : j < 0 + tr.accepted.length
    · rw [if_pos hc] at h
      right
      rw [hmul]
      exact h.1
    · rw [if_neg hc] at h
      left
      rw [hmul]
      exact h
  · intro j s1 h
    obtain ⟨hold, hs1⟩ := spmc_tryAdd_true_elim h
    refine ⟨hold, ?_⟩
    rw [hs1]
    dsimp only
    rw [getD_set_self _ _ _ _ (by rw [hinv.slen]; exact Nat.mod_lt _ (by omega))]
  · intro r s1 h
    obtain ⟨_, _, hs1⟩ := spmc_runNext_true_elim h
    have hrdy : tr.executed.length < tr.accepted.length := by
      by_contra hge
      have hempty : tr.executed.length = tr.accepted.length :=
        Nat.le_antisymm hle (by omega)
      rw [spmc_runNext_empty hn2 hdvd hinv hempty] at h
      simp at h
    obtain ⟨hseq, _⟩ := inv_tail_slot_filled hdvd hinv hrdy
    constructor
    · rw [hseq, hinv.htail]
      simp only [U32]
      omega
    · rw [hs1]
      dsimp only
      rw [getD_set_self _ _ _ _ (by rw [hinv.slen]; exact Nat.mod_lt _ (by omega))]

theorem c3_witness :
    (∀ i, i < 2 → ((initQ 2).slots.getD i default).sequence = i) ∧
    (∀ i, i < 2 → ∃ k,
      (witTrace.state.slots.getD i default).sequence = (i + k * 2) % U32 ∨
      (witTrace.state.slots.getD i default).sequence = (i + k * 2 + 1) % U32) ∧
    (∀ j s1, Spmc.tryAdd 2 j witTrace.state = (true, s1) →
      (witTrace.state.slots.getD (witTrace.state.head % 2) default).sequence =
        witTrace.state.head ∧
      (s1.slots.getD (witTrace.state.head % 2) default).sequence =
        (witTrace.state.head + 1) % U32) ∧
    (∀ r s1, Spmc.runNext 2 witTrace.state = some (true, r, s1) →
      (witTrace.state.slots.getD (witTrace.state.tail % 2) default).sequence =
        (witTrace.state.tail + 1) % U32 ∧
      (s1.slots.getD (witTrace.state.tail % 2) default).sequence =
        (witTrace.state.tail + 2) % U32) :=
  c3_slot_state_machine 2 (by decide) ⟨2147483648, by simp only [U32]⟩ (by decide)
    [Op.tryAdd 7] witTrace (Or.inl (by decide))

/-- C4: with counters seeded at 0xFFFFFFFC (scenario S4), the
signed-difference slot tests still classify slots correctly — the head
slot is claimable (`i32(seq - h) = 0`), the seeded empty queue rejects
`run_next` (`i32(seq - (t+1)) < 0`), five straight submissions report
four successes and one full-queue reject across the wrap — and ten
submissions interleaved with ten executions all run in order, with the
counters wrapping past 2^32 to 6 and invariants 1 (wrap-safe
`completed ≤ tail ≤ head`) and 2 (slot sequences one lap ahead)
holding in the final state. -/
theorem c4_wrap_around_scenario_s4 :
    toI32 (usub (s4State.slots.getD (s4State.head % 4) default).sequence
      s4State.head) = 0 ∧
    Mpmc.runNext 4 s4State = some (false, none, s4State) ∧
    (Mpmc.tryAddRun 4 [0, 1, 2, 3, 4] s4State).map Prod.fst =
      some [true, true, true, true, false] ∧
    Mpmc.exec 4 s4Ops { state := s4State, accepted := [], executed := [] } =
      some { state := { slots := [⟨8, 8⟩, ⟨9, 9⟩, ⟨6, 6⟩, ⟨7, 7⟩],
                        head := 6, tail := 6, completed := 6 },
             accepted := [0, 1, 2, 3, 4, 5, 6, 7, 8, 9],
             executed := [0, 1, 2, 3, 4, 5, 6, 7, 8, 9] } ∧
    (∀ tr, Mpmc.exec 4 s4Ops { state := s4State, accepted := [], executed := [] } =
        some tr →
      0 ≤ toI32 (usub tr.state.tail tr.state.completed) ∧
      0 ≤ toI32 (usub tr.state.head tr.state.tail) ∧
      0 ≤ toI32 (usub tr.state.head tr.state.completed) ∧
      tr.executed = tr.accepted ∧
      (tr.state.slots.getD 0 default).sequence = (0 + 1073741826 * 4) % U32 ∧
      (tr.state.slots.getD 1 default).sequence = (1 + 1073741826 * 4) % U32 ∧
      (tr.state.slots.getD 2 default).sequence = (2 + 1073741825 * 4) % U32 ∧
      (tr.state.slots.getD 3 default).sequence = (3 + 1073741825 * 4) % U32) := by
  have hval : Mpmc.exec 4 s4Ops { state := s4State, accepted := [], executed := [] } = some { state := { slots := [⟨8, 8⟩, ⟨9, 9⟩, ⟨6, 6⟩, ⟨7, 7⟩], head := 6, tail := 6, completed := 6 }, accepted := [0, 1, 2, 3, 4, 5, 6, 7, 8, 9], executed := [0, 1, 2, 3, 4, 5, 6, 7, 8, 9] } := by
    decide
  refine ⟨by decide, by decide, by decide, hval, ?_⟩
  intro tr htr
  rw [hval] at htr
  injection htr with htr
  rw [← htr]
  exact ⟨by decide, by decide, by decide, by decide, by decide, by decide,
    by decide, by decide⟩

/-- C5: on an initialized queue with no intervening `run_next`, any
`QueueSize + 1` consecutive `try_add` calls return `true` for the first
`QueueSize` and `false` for the last (SPMC, and identically via the MPMC
path); `Spmc::try_add` returns `false` exactly when the acquire-loaded
sequence of `queue_[head % QueueSize]` differs from `head`;
`Mpmc::try_add` returns `false` exactly when that sequence is
signed-behind `head`; and `add` succeeds exactly when `try_add` does
(otherwise it retries forever). -/
theorem c5_full_queue_reject (n : Nat) (hn2 : 1 < n) (hdvd : n ∣ U32)
    (hnu : n < U32) (js : List Nat) (hlen : js.length = n + 1) :
    (Spmc.tryAddRun n js (initQ n)).1 = List.replicate n true ++ [false] ∧
    (Mpmc.tryAddRun n js (initQ n)).map Prod.fst =
      some (List.replicate n true ++ [false]) ∧
    (∀ (s : QState) (j : Nat), (Spmc.tryAdd n j s).1 = false ↔
      (s.slots.getD (s.head % n) default).sequence ≠ s.head) ∧
    (∀ (s : QState) (j : Nat), Mpmc.tryAdd n j s = some (false, s) ↔
      toI32 (usub (s.slots.getD (s.head % n) default).sequence s.head) < 0) ∧
    (∀ (s s1 : QState) (j : Nat), Spmc.add n j s = some s1 ↔
      Spmc.tryAdd n j s = (true, s1)) := by
  have hne : js ≠ [] := by
    intro h
    rw [h] at hlen
    simp at hlen
  have hsplit : js = js.dropLast ++ [js.getLast hne] := (List.dropLast_append_getLast hne).symm
  have hdllen : js.dropLast.length = n := by
    rw [List.length_dropLast, hlen]
    omega
  obtain ⟨s1, hfillrun, hinv1⟩ := spmc_fill hn2 hdvd hnu js.dropLast [] []
    (initQ n) (inv_initQ hn2 hnu) (by simp only [List.length_nil]; omega)
  have hfull : Spmc.tryAdd n (js.getLast hne) s1 = (false, s1) :=
    spmc_tryAdd_fullqueue _ hn2 hdvd hnu (by simpa using hinv1)
      (by simp only [List.nil_append, List.length_nil, hdllen]; omega)
  have hrun1 : (Spmc.tryAddRun n js (initQ n)).1 = List.replicate n true ++ [false] := by
    conv_lhs => rw [hsplit]
    rw [spmc_tryAddRun_append, hfillrun]
    simp only [hdllen, Spmc.tryAddRun, hfull]
  refine ⟨hrun1, ?_, ?_, ?_, ?_⟩
  · rw [mpmc_tryAddRun_agree hn2 hdvd hnu js [] [] (initQ n) (inv_initQ hn2 hnu)]
    exact congrArg some hrun1
  · intro s j
    by_cases hc : (s.slots.getD (s.head % n) default).sequence = s.head
    · rw [spmc_tryAdd_eq_true (j := j) hc]
      exact ⟨fun h => Bool.noConfusion h, fun hne => absurd hc hne⟩
    · rw [spmc_tryAdd_eq_false (j := j) hc]
      exact ⟨fun _ => hc, fun _ => rfl⟩
  · intro s j
    constructor
    · intro h
      rcases lt_trichotomy (toI32 (usub (s.slots.getD (s.head % n) default).sequence
          s.head)) 0 with hd | hd | hd
      · exact hd
      · rw [mpmc_tryAdd_eq_true (j := j) hd] at h
        simp at h
      · rw [mpmc_tryAdd_eq_none (j := j) hd] at h
        simp at h
    · exact mpmc_tryAdd_eq_false
  · intro s s1 j
    simp only [Spmc.add]
    rcases htry : Spmc.tryAdd n j s with ⟨ok, s2⟩
    cases ok
    · simp
    · simp

theorem c5_witness :
    (Spmc.tryAddRun 2 [10, 11, 12] (initQ 2)).1 = List.replicate 2 true ++ [false] ∧
    (Mpmc.tryAddRun 2 [10, 11, 12] (initQ 2)).map Prod.fst =
      some (List.replicate 2 true ++ [false]) ∧
    (∀ (s : QState) (j : Nat), (Spmc.tryAdd 2 j s).1 = false ↔
      (s.slots.getD (s.head % 2) default).sequence ≠ s.head) ∧
    (∀ (s : QState) (j : Nat), Mpmc.tryAdd 2 j s = some (false, s) ↔
      toI32 (usub (s.slots.getD (s.head % 2) default).sequence s.head) < 0) ∧
    (∀ (s s1 : QState) (j : Nat), Spmc.add 2 j s = some s1 ↔
      Spmc.tryAdd 2 j s = (true, s1)) :=
  c5_full_queue_reject 2 (by decide) ⟨2147483648, by simp only [U32]⟩ (by decide)
    [10, 11, 12] (by decide)

/-- C6: whenever the signed difference `i32(sequence - (tail + 1))` of the
slot at `tail % QueueSize` is negative (no job ready), `run_next` — SPMC
and MPMC alike — returns `false` and returns the state completely
unchanged: same `head`, `tail`, `completed`, and the identical slot array
(payloads, run functions and sequences). -/
theorem c6_empty_reject_no_side_effect (n : Nat) (s : QState)
    (h : toI32 (usub (s.slots.getD (s.tail % n) default).sequence
      ((s.tail + 1) % U32)) < 0) :
    Spmc.runNext n s = some (false, none, s) ∧
    Mpmc.runNext n s = some (false, none, s) :=
  ⟨spmc_runNext_eq_false h, by rw [mpmc_runNext_eq_spmc]; exact spmc_runNext_eq_false h⟩

theorem c6_witness :
    Spmc.runNext 2 (initQ 2) = some (false, none, initQ 2) ∧
    Mpmc.runNext 2 (initQ 2) = some (false, none, initQ 2) :=
  c6_empty_reject_no_side_effect 2 (initQ 2) (by decide)

/-- C7: `active_count` returns `head - completed` in wrapping u32
arithmetic (SPMC reads `head_` plainly, MPMC relaxed — the same value in a
sequential state), and on every reachable state this equals the number of
jobs accepted but not yet executed. -/
theorem c7_active_count (n : Nat) (hn2 : 1 < n) (hdvd : n ∣ U32)
    (hnu : n < U32) (ops : List Op) (tr : Trace)
    (hexec : Spmc.exec n ops (initTrace n) = some tr ∨
      Mpmc.exec n ops (initTrace n) = some tr) :
    Spmc.activeCount tr.state = usub tr.state.head tr.state.completed ∧
    Mpmc.activeCount tr.state = usub tr.state.head tr.state.completed ∧
    Spmc.activeCount tr.state = tr.accepted.length - tr.executed.length ∧
    Mpmc.activeCount tr.state = tr.accepted.length - tr.executed.length := by
  have hinv := exec_reachable_inv hn2 hdvd hnu hexec
  have hcap := hinv.hcap
  have hcnt : usub tr.state.head tr.state.completed =
      tr.accepted.length - tr.executed.length := by
    rw [hinv.hhead, hinv.hcomp]
    exact usub_offset_sub hinv.hle (by simp only [U32] at hnu ⊢; omega)
  exact ⟨rfl, rfl, hcnt, hcnt⟩

theorem c7_witness :
    Spmc.activeCount witTrace.state = usub witTrace.state.head witTrace.state.completed ∧
    Mpmc.activeCount witTrace.state = usub witTrace.state.head witTrace.state.completed ∧
    Spmc.activeCount witTrace.state = witTrace.accepted.length - witTrace.executed.length ∧
    Mpmc.activeCount witTrace.state = witTrace.accepted.length - witTrace.executed.length :=
  c7_active_count 2 (by decide) ⟨2147483648, by simp only [U32]⟩ (by decide)
    [Op.tryAdd 7] witTrace (Or.inl (by decide))

/-- C8: a zero-initialized queue on which `init` was never called is not
usable for QueueSize > 1: only slot 0 has `sequence` equal to its index, so
the first `try_add` succeeds but the second (with no `run_next` in between)
reports the queue full even though only one slot is occupied — hence `init`
must run before first use, and the source comment about the zero-initialized
data section cannot extend to the slot sequences. -/
theorem c8_zero_initialized_needs_init (n : Nat) (hn2 : 1 < n) :
    (Spmc.tryAdd n 0 (zeroQ n)).1 = true ∧
    (Spmc.tryAdd n 1 (Spmc.tryAdd n 0 (zeroQ n)).2).1 = false ∧
    (∀ i, 0 < i → i < n → ((zeroQ n).slots.getD i default).sequence ≠ i) ∧
    (∀ i, i < n → ((initQ n).slots.getD i default).sequence = i) := by
  have hzget : ∀ i, i < n → (zeroQ n).slots.getD i default = ⟨0, 0⟩ := by
    intro i hi
    simp [zeroQ, List.getD_eq_getElem?_getD, List.getElem?_replicate, hi]
  have hfirst : Spmc.tryAdd n 0 (zeroQ n) =
      (true, { zeroQ n with
        slots := (zeroQ n).slots.set 0 ⟨0, 1 % U32⟩,
        head := 1 % U32 }) := by
    have h0 : (zeroQ n).head % n = 0 := by simp [zeroQ]
    have := spmc_tryAdd_eq_true (n := n) (j := 0) (s := zeroQ n)
      (by rw [h0, hzget 0 (by omega)]; rfl)
    rw [this]
    rw [h0]
    rfl
  have h1u : 1 % U32 = 1 := by simp only [U32]
  refine ⟨by rw [hfirst], ?_, ?_, ?_⟩
  · rw [hfirst]
    apply (congrArg Prod.fst (spmc_tryAdd_eq_false ?_)).trans rfl
    dsimp only
    rw [h1u, show (1 : Nat) % n = 1 from Nat.mod_eq_of_lt hn2,
      getD_set_ne _ _ _ _ _ (by omega), hzget 1 hn2]
    decide
  · intro i h0i hin
    rw [hzget i hin]
    show (0 : Nat) ≠ i
    omega
  · intro i hi
    have hin : i % n = i := Nat.mod_eq_of_lt hi
    simp [initQ, List.getD_eq_getElem?_getD, List.getElem?_map,
      List.getElem?_range hi, hin]

theorem c8_witness :
    (Spmc.tryAdd 2 0 (zeroQ 2)).1 = true ∧
    (Spmc.tryAdd 2 1 (Spmc.tryAdd 2 0 (zeroQ 2)).2).1 = false ∧
    (∀ i, 0 < i → i < 2 → ((zeroQ 2).slots.getD i default).sequence ≠ i) ∧
    (∀ i, i < 2 → ((initQ 2).slots.getD i default).sequence = i) :=
  c8_zero_initialized_needs_init 2 (by decide)

/-- C9: `Mpmc::run_next` is the same function as `Spmc::run_next`: on every
state of the shared fields the two produce the same boolean result, run the
same job, and leave the identical successor state (the same
`sequence := t + QueueSize` store and the same `completed` increment). -/
theorem c9_mpmc_run_next_identical_to_spmc (n : Nat) (s : QState) :
    Mpmc.runNext n s = Spmc.runNext n s := rfl

/-- C10: a failed `try_add` (queue full) performs no writes at all: the
returned state is the pre-call state — `head`, `tail`, `completed` and
every slot's payload, run function and sequence unchanged — for SPMC and
MPMC alike. -/
theorem c10_try_add_failure_writes_nothing (n j : Nat) (s : QState) :
    ((Spmc.tryAdd n j s).1 = false → (Spmc.tryAdd n j s).2 = s) ∧
    (∀ s1, Mpmc.tryAdd n j s = some (false, s1) → s1 = s) := by
  constructor
  · intro h
    by_cases hc : (s.slots.getD (s.head % n) default).sequence = s.head
    · rw [spmc_tryAdd_eq_true (j := j) hc] at h
      exact Bool.noConfusion h
    · rw [spmc_tryAdd_eq_false (j := j) hc]
  · intro s1 h
    rcases lt_trichotomy (toI32 (usub (s.slots.getD (s.head % n) default).sequence
        s.head)) 0 with hd | hd | hd
    · rw [mpmc_tryAdd_eq_false (j := j) hd] at h
      simp only [Option.some.injEq, Prod.mk.injEq, true_and] at h
      exact h.symm
    · rw [mpmc_tryAdd_eq_true (j := j) hd] at h
      simp at h
    · rw [mpmc_tryAdd_eq_none (j := j) hd] at h
      simp at h

theorem c10_witness :
    (Spmc.tryAdd 2 0 fullWitState).2 = fullWitState ∧ fullWitState = fullWitState :=
  ⟨(c10_try_add_failure_writes_nothing 2 0 fullWitState).1 (by decide),
    (c10_try_add_failure_writes_nothing 2 0 fullWitState).2 fullWitState (by decide)⟩
